import Mathlib

/-!
Shallow embedding of the composition runtime in `src/composer.rs` of the
`actuate` repository, together with proofs about the claims on its
scheduler: the path-ordered pending set, the parent-chain walk of
`Runtime::pending`, and the driver loop `Composer::next` / `try_compose`.

Node keys (`slotmap::DefaultKey`) are modelled as `Nat`; errors
(`Box<dyn Error>`) are modelled as `Nat` codes; the `BTreeSet<Pending>` is
modelled as a list kept sorted by `Pending::cmp`.
-/

namespace Actuate

/-- `usize::cmp` / `Ord for usize`: three-way numeric comparison. -/
def natCmp (a b : Nat) : Ordering :=
  if a < b then .lt else if a = b then .eq else .gt

/-- `Pending` (composer.rs 203-207): a node key paired with the ordered
sequence of child indices from the root down to the node. -/
structure Pending where
  key : Nat
  indices : List Nat
deriving DecidableEq, Repr

/-- The loop body of `Pending::cmp` (composer.rs 215-226): compare the two
index sequences pairwise over their zip; at the first non-equal pair return
that ordering, otherwise compare the lengths. -/
def zipCmp : List Nat → List Nat → Ordering
  | a :: xs, b :: ys =>
    match natCmp a b with
    | .eq => zipCmp xs ys
    | o => o
  | xs, ys => natCmp xs.length ys.length

/-- `Ord for Pending` (composer.rs 215-226). -/
def Pending.cmp (p q : Pending) : Ordering :=
  zipCmp p.indices q.indices

/-- `BTreeSet::insert` on the sorted-list model: place the element before
the first strictly greater entry; when an entry compares `eq` the existing
entry is kept and the insert is a no-op. -/
def btInsert (x : Pending) : List Pending → List Pending
  | [] => [x]
  | y :: ys =>
    match Pending.cmp x y with
    | .lt => x :: y :: ys
    | .eq => y :: ys
    | .gt => y :: btInsert x ys

/-- `BTreeSet::pop_first` on the sorted-list model. -/
def popFirst : List Pending → Option (Pending × List Pending)
  | [] => none
  | x :: xs => some (x, xs)

/-- Specification-side order on paths: plain lexicographic comparison in
which, on a common prefix, the shorter sequence comes first. -/
def specLex : List Nat → List Nat → Ordering
  | [], [] => .eq
  | [], _ :: _ => .lt
  | _ :: _, [] => .gt
  | a :: xs, b :: ys =>
    match natCmp a b with
    | .eq => specLex xs ys
    | o => o

theorem natCmp_self (a : Nat) : natCmp a a = .eq := by
  simp [natCmp]

theorem natCmp_zero_succ (n : Nat) : natCmp 0 (n + 1) = .lt := by
  simp [natCmp]

theorem natCmp_succ_zero (n : Nat) : natCmp (n + 1) 0 = .gt := by
  simp [natCmp]

theorem natCmp_eq_iff (a b : Nat) : natCmp a b = .eq ↔ a = b := by
  unfold natCmp
  split
  · constructor
    · intro h; cases h
    · intro h; omega
  · split
    · simp [*]
    · constructor
      · intro h; cases h
      · intro h; omega

theorem zipCmp_eq_specLex (xs : List Nat) : ∀ ys, zipCmp xs ys = specLex xs ys := by
  induction xs with
  | nil =>
    intro ys
    cases ys with
    | nil => simp [zipCmp, specLex, natCmp_self]
    | cons b ys => simp [zipCmp, specLex, natCmp_zero_succ]
  | cons a xs ih =>
    intro ys
    cases ys with
    | nil => simp [zipCmp, specLex, natCmp_succ_zero]
    | cons b ys =>
      simp only [zipCmp, specLex]
      cases h : natCmp a b <;> simp [h, ih ys]

theorem specLex_self_append (l : List Nat) :
    ∀ m, m ≠ [] → specLex l (l ++ m) = .lt := by
  induction l with
  | nil =>
    intro m hm
    cases m with
    | nil => exact absurd rfl hm
    | cons b ys => simp [specLex]
  | cons a l ih =>
    intro m hm
    simp [specLex, natCmp_self, ih m hm]

theorem zipCmp_self_eq (l : List Nat) : zipCmp l l = .eq := by
  induction l with
  | nil => simp [zipCmp, natCmp_self]
  | cons a l ih => simp [zipCmp, natCmp_self, ih]

/-- C1: the `Pending` ordering is lexicographic over the root-to-node index
paths, with the shorter path first when the paths agree on their common
prefix; an entry with path `[0,1]` is popped from the set before one with
path `[0,2]`, and an entry with path `[0]` before one with path `[0,1]`,
whatever the node keys. -/
theorem c1_pending_order :
    (∀ p q : Pending, Pending.cmp p q = specLex p.indices q.indices) ∧
    (∀ (k k' : Nat) (l m : List Nat), m ≠ [] →
      Pending.cmp ⟨k, l⟩ ⟨k', l ++ m⟩ = .lt) ∧
    (∀ k k' : Nat,
      popFirst (btInsert ⟨k, [0, 2]⟩ (btInsert ⟨k', [0, 1]⟩ [])) =
        some (⟨k', [0, 1]⟩, [⟨k, [0, 2]⟩])) ∧
    (∀ k k' : Nat,
      popFirst (btInsert ⟨k, [0, 1]⟩ (btInsert ⟨k', [0]⟩ [])) =
        some (⟨k', [0]⟩, [⟨k, [0, 1]⟩])) := by
  refine ⟨fun p q => zipCmp_eq_specLex p.indices q.indices, ?_, ?_, ?_⟩
  · intro k k' l m hm
    rw [Pending.cmp, zipCmp_eq_specLex]
    exact specLex_self_append l m hm
  · intro k k'
    rfl
  · intro k k'
    rfl

/-- Witness for C1 at a concrete input: the shorter-prefix clause applied
to paths `[0]` and `[0, 1]`. -/
theorem c1_pending_order_witness :
    Pending.cmp ⟨3, [0]⟩ ⟨4, [0, 1]⟩ = .lt :=
  c1_pending_order.2.1 3 4 [0] [1] (by decide)

/-- The per-node data of `Node` (composer.rs 68-74) that the scheduler
reads: the optional parent key and the creation-time child index. -/
structure NodeData where
  parent : Option Nat
  childIdx : Nat
deriving DecidableEq, Repr

/-- The node arena (`SlotMap<DefaultKey, Rc<Node>>`), modelled as an
association list from keys to node data. -/
abbrev Arena := List (Nat × NodeData)

/-- The parent-chain walk inside `Runtime::pending` (composer.rs 149-155):
push each ancestor's child index onto the accumulator, innermost first.
Fuel bounds the walk; `none` models the `unwrap` panic on a missing key or
a chain longer than the fuel. -/
def collectUp (ar : Arena) : Nat → Option Nat → List Nat → Option (List Nat)
  | _, none, acc => some acc
  | 0, some _, _ => none
  | fuel + 1, some k, acc =>
    match ar.lookup k with
    | none => none
    | some nd => collectUp ar fuel nd.parent (acc ++ [nd.childIdx])

/-- `Runtime::pending` (composer.rs 145-160): start from the node's own
child index, walk the parent chain collecting indices innermost first, then
reverse to root-first order. -/
def pendingOf (ar : Arena) (fuel : Nat) (key : Nat) : Option Pending :=
  match ar.lookup key with
  | none => none
  | some nd => (collectUp ar fuel nd.parent [nd.childIdx]).map fun l => ⟨key, l.reverse⟩

/-- `Runtime::queue` (composer.rs 162-165) acting on the pending set. -/
def queueOf (ar : Arena) (fuel : Nat) (key : Nat) (s : List Pending) :
    Option (List Pending) :=
  (pendingOf ar fuel key).map fun p => btInsert p s

/-- The root-to-node path of a key in the arena: the child indices from the
root down to the node, the root's own index first. -/
inductive HasPath (ar : Arena) : Nat → List Nat → Prop
  | root {k : Nat} {nd : NodeData} :
      ar.lookup k = some nd → nd.parent = none → HasPath ar k [nd.childIdx]
  | child {k p : Nat} {nd : NodeData} {path : List Nat} :
      ar.lookup k = some nd → nd.parent = some p →
      HasPath ar p path → HasPath ar k (path ++ [nd.childIdx])

theorem HasPath.ne_nil {ar : Arena} {k : Nat} {path : List Nat}
    (h : HasPath ar k path) : path ≠ [] := by
  cases h with
  | root _ _ => simp
  | child _ _ _ => simp

theorem collectUp_hasPath {ar : Arena} {k : Nat} {path : List Nat}
    (h : HasPath ar k path) :
    ∀ fuel acc, path.length ≤ fuel + 1 →
      ∃ nd, ar.lookup k = some nd ∧
        collectUp ar fuel nd.parent (acc ++ [nd.childIdx]) =
          some (acc ++ path.reverse) := by
  induction h with
  | root hl hp =>
    intro fuel acc _
    refine ⟨_, hl, ?_⟩
    rw [hp]
    cases fuel <;> simp [collectUp]
  | child hl hp hsub ih =>
    rename_i k p nd ppath
    intro fuel acc hf
    have hne : ppath ≠ [] := hsub.ne_nil
    have hlen : 1 ≤ ppath.length := by
      cases ppath with
      | nil => exact absurd rfl hne
      | cons _ _ => simp
    obtain ⟨f, rfl⟩ : ∃ f, fuel = f + 1 := by
      cases fuel with
      | zero =>
        exfalso
        have h' : ppath.length + 1 ≤ 1 := by simpa using hf
        omega
      | succ f => exact ⟨f, rfl⟩
    obtain ⟨ndp, hlp, hcol⟩ := ih f (acc ++ [nd.childIdx]) (by simp at hf ⊢; omega)
    refine ⟨nd, hl, ?_⟩
    rw [hp]
    simp only [collectUp, hlp]
    rw [hcol]
    simp

/-- C5: for a key with root-to-node path `path` in the arena, the code's
parent-chain walk (innermost first, then reversed) computes exactly
`(key, path)`, and `Runtime::queue` inserts that entry into the
path-ordered pending set. -/
theorem c5_mark_computes_path {ar : Arena} {k : Nat} {path : List Nat}
    (fuel : Nat) (h : HasPath ar k path) (hf : path.length ≤ fuel + 1) :
    pendingOf ar fuel k = some ⟨k, path⟩ ∧
    ∀ s, queueOf ar fuel k s = some (btInsert ⟨k, path⟩ s) := by
  obtain ⟨nd, hl, hcol⟩ := collectUp_hasPath h fuel [] hf
  simp only [List.nil_append] at hcol
  have hpend : pendingOf ar fuel k = some ⟨k, path⟩ := by
    simp [pendingOf, hl, hcol]
  exact ⟨hpend, fun s => by simp [queueOf, hpend]⟩

/-- A concrete three-node arena: root `0`, its child `1` (index 0), and
`1`'s second child `2` (index 1). -/
def arTest : Arena := [(0, ⟨none, 0⟩), (1, ⟨some 0, 0⟩), (2, ⟨some 1, 1⟩)]

theorem arTest_hasPath_2 : HasPath arTest 2 [0, 0, 1] := by
  have h0 : HasPath arTest 0 [0] := @HasPath.root arTest 0 ⟨none, 0⟩ (by decide) rfl
  have h1 : HasPath arTest 1 [0, 0] :=
    @HasPath.child arTest 1 0 ⟨some 0, 0⟩ [0] (by decide) rfl h0
  exact @HasPath.child arTest 2 1 ⟨some 1, 1⟩ [0, 0] (by decide) rfl h1

/-- Witness for C5 on the concrete arena `arTest`. -/
theorem c5_mark_computes_path_witness :
    pendingOf arTest 2 2 = some ⟨2, [0, 0, 1]⟩ ∧
    queueOf arTest 2 2 [] = some [⟨2, [0, 0, 1]⟩] :=
  ⟨(c5_mark_computes_path 2 arTest_hasPath_2 (by decide)).1,
   (c5_mark_computes_path 2 arTest_hasPath_2 (by decide)).2 []⟩

theorem Pending.cmp_self (p : Pending) : Pending.cmp p p = .eq :=
  zipCmp_self_eq p.indices

theorem btInsert_btInsert_self (x : Pending) :
    ∀ s, btInsert x (btInsert x s) = btInsert x s := by
  intro s
  induction s with
  | nil => simp [btInsert, Pending.cmp_self]
  | cons y ys ih =>
    cases h : Pending.cmp x y with
    | lt => simp [btInsert, h, Pending.cmp_self]
    | eq => simp [btInsert, h]
    | gt => simp [btInsert, h, ih]

/-- C6: marking an already-pending node is idempotent — inserting the same
entry twice equals inserting it once, a second `Runtime::queue` of the same
key leaves the set unchanged, and in a set whose entries all arise from the
path computation on one arena there is at most one entry per node key. -/
theorem c6_mark_idempotent :
    (∀ (x : Pending) (s : List Pending),
      btInsert x (btInsert x s) = btInsert x s) ∧
    (∀ (ar : Arena) (fuel k : Nat) (s s' : List Pending),
      queueOf ar fuel k s = some s' → queueOf ar fuel k s' = some s') ∧
    (∀ (ar : Arena) (fuel : Nat) (s : List Pending),
      (∀ q ∈ s, pendingOf ar fuel q.key = some q) →
      ∀ p ∈ s, ∀ q ∈ s, p.key = q.key → p = q) := by
  refine ⟨btInsert_btInsert_self, ?_, ?_⟩
  · intro ar fuel k s s' h
    unfold queueOf at h ⊢
    cases hp : pendingOf ar fuel k with
    | none => rw [hp] at h; cases h
    | some p =>
      rw [hp] at h
      have h2 : btInsert p s = s' := by simpa using h
      show some (btInsert p s') = some s'
      rw [← h2, btInsert_btInsert_self]
  · intro ar fuel s hget p hp q hq hkey
    have h1 := hget p hp
    have h2 := hget q hq
    rw [hkey] at h1
    rw [h1] at h2
    exact Option.some_injective _ h2

/-- Witness for C6 on the concrete arena `arTest`: queueing key `1` into a
set that already holds its entry changes nothing. -/
theorem c6_mark_idempotent_witness :
    queueOf arTest 2 1 [⟨1, [0, 0]⟩] = some [⟨1, [0, 0]⟩] :=
  c6_mark_idempotent.2.1 arTest 2 1 [] [⟨1, [0, 0]⟩] (by decide)

theorem zipCmp_eq_iff (xs : List Nat) : ∀ ys, zipCmp xs ys = .eq ↔ xs = ys := by
  induction xs with
  | nil =>
    intro ys
    cases ys with
    | nil => simp [zipCmp_self_eq]
    | cons b ys => simp [zipCmp, natCmp_zero_succ]
  | cons a xs ih =>
    intro ys
    cases ys with
    | nil => simp [zipCmp, natCmp_succ_zero]
    | cons b ys =>
      simp only [zipCmp]
      cases h : natCmp a b with
      | eq =>
        have hab : a = b := (natCmp_eq_iff a b).mp h
        simp [hab, ih ys]
      | lt =>
        have : a ≠ b := by
          intro hab; rw [hab, natCmp_self] at h; cases h
        simp [this]
      | gt =>
        have : a ≠ b := by
          intro hab; rw [hab, natCmp_self] at h; cases h
        simp [this]

/-- C8: the `Pending` ordering reads only the index path and ignores the
node key, while structural equality compares key and path; two entries with
distinct keys but identical paths compare `eq`, so inserting the second
into the ordered set is a no-op and its node key never enters the set. -/
theorem c8_order_ignores_key :
    (∀ (k₁ k₂ k₃ k₄ : Nat) (l₁ l₂ : List Nat),
      Pending.cmp ⟨k₁, l₁⟩ ⟨k₂, l₂⟩ = Pending.cmp ⟨k₃, l₁⟩ ⟨k₄, l₂⟩) ∧
    (∀ p q : Pending, Pending.cmp p q = .eq ↔ p.indices = q.indices) ∧
    (∀ p q : Pending, p = q ↔ p.key = q.key ∧ p.indices = q.indices) ∧
    (∀ (k₁ k₂ : Nat) (l : List Nat),
      btInsert ⟨k₂, l⟩ [⟨k₁, l⟩] = [⟨k₁, l⟩]) ∧
    (∀ (k₁ k₂ : Nat) (l : List Nat), k₁ ≠ k₂ →
      ∀ q ∈ btInsert ⟨k₂, l⟩ [⟨k₁, l⟩], q.key ≠ k₂) := by
  refine ⟨fun _ _ _ _ _ _ => rfl,
    fun p q => zipCmp_eq_iff p.indices q.indices, ?_, ?_, ?_⟩
  · intro p q
    cases p; cases q
    simp [Pending.mk.injEq]
  · intro k₁ k₂ l
    simp [btInsert, Pending.cmp, zipCmp_self_eq]
  · intro k₁ k₂ l hne q hq
    simp [btInsert, Pending.cmp, zipCmp_self_eq] at hq
    rw [hq]
    simpa using hne

/-- Witness for C8: with identical path `[0, 1]`, key `2`'s entry is
dropped by the insert and never appears in the set. -/
theorem c8_order_ignores_key_witness :
    ∀ q ∈ btInsert ⟨2, [0, 1]⟩ [⟨1, [0, 1]⟩], q.key ≠ 2 :=
  c8_order_ignores_key.2.2.2.2 1 2 [0, 1] (by decide)

/-- Driver state: the queues and flags of `Runtime` plus `Composer`'s
`is_initial` flag (composer.rs 78-101, 262-267). Tasks are listed by key
(the `SlotMap` of futures), queued updates by an id into the abstract
semantics; the error sink is the per-step `error_cell`. -/
structure RtState where
  pending : List Pending
  taskQueue : List Nat
  tasks : List Nat
  updateQueue : List Nat
  errorCell : Option Nat
  currentKey : Nat
  root : Nat
  isInitial : Bool
deriving DecidableEq, Repr

/-- Abstract semantics of the user code the driver runs: `composeF` is the
`any_compose` of the node at a key, `pollF` polls the future stored at a
task key (the `Bool` tells whether it completed), `updF` runs a queued
update closure. Each may transform the runtime state arbitrarily: mark
nodes pending, push tasks or updates, or record an error in the sink. -/
structure Sem where
  composeF : Nat → RtState → RtState
  pollF : Nat → RtState → RtState × Bool
  updF : Nat → RtState → RtState

/-- Poll one task. composer.rs 394 discards the poll result and the driver
never touches the task table. Modelled from the spec: a task that completes
is removed from the task table — the spec attributes this to the task's own
wrapper, created by the spawning API in `compose.rs`, a file not present
under src/. -/
def pollAndReap (sem : Sem) (k : Nat) (st : RtState) : RtState :=
  let r := sem.pollF k st
  if r.2 then { r.1 with tasks := r.1.tasks.erase k } else r.1

/-- The ready-task drain loop (composer.rs 384-395): pop each queued key,
look it up in the task table (`unwrap`), poll it. Fuel bounds re-entrant
wakes; `none` models fuel exhaustion or the `unwrap` panic. -/
def drainTasks (sem : Sem) : Nat → RtState → Option RtState
  | 0, st => if st.taskQueue.isEmpty then some st else none
  | fuel + 1, st =>
    match st.taskQueue with
    | [] => some st
    | k :: rest =>
      let st1 := { st with taskQueue := rest }
      if k ∈ st1.tasks then drainTasks sem fuel (pollAndReap sem k st1) else none

/-- The update drain loop (composer.rs 397-399): pop and run each queued
update closure, FIFO. -/
def drainUpdates (sem : Sem) : Nat → RtState → Option RtState
  | 0, st => if st.updateQueue.isEmpty then some st else none
  | fuel + 1, st =>
    match st.updateQueue with
    | [] => some st
    | u :: rest => drainUpdates sem fuel (sem.updF u { st with updateQueue := rest })

/-- composer.rs 412: the step result read from the error sink. -/
def stepOutcome : Option Nat → Except Nat Unit
  | none => .ok ()
  | some e => .error e

/-- `<Composer as Iterator>::next` (composer.rs 360-413). A fresh error
sink is installed on the root scope first (modelled by clearing
`errorCell`); the initial step composes the root; otherwise the smallest
pending entry is popped and composed, and the step result is read from the
sink; with nothing pending, ready tasks are drained, then queued updates,
and `none` (inner) reports no progress without consulting the sink. The
outer `none` models a stuck drain (fuel or panic). -/
def next (sem : Sem) (dfuel : Nat) (st0 : RtState) :
    Option (RtState × Option (Except Nat Unit)) :=
  let st := { st0 with errorCell := none }
  if st.isInitial then
    let st1 := sem.composeF st.root { st with isInitial := false, currentKey := st.root }
    some (st1, some (stepOutcome st1.errorCell))
  else
    match popFirst st.pending with
    | some (p, rest) =>
      let st1 := sem.composeF p.key { st with pending := rest, currentKey := p.key }
      some (st1, some (stepOutcome st1.errorCell))
    | none =>
      match drainTasks sem dfuel st with
      | none => none
      | some st1 =>
        match drainUpdates sem dfuel st1 with
        | none => none
        | some st2 => some (st2, none)

/-- `TryComposeError` (composer.rs 189-195). -/
inductive TryComposeError where
  | pending
  | error (e : Nat)
deriving DecidableEq, Repr

/-- The `try_compose` loop (composer.rs 307-321): step until a step reports
no progress or fails; `is_pending` records whether any step did work.
`lfuel` bounds the iteration count; the outer `none` models exhaustion or a
stuck step. -/
def tryComposeAux (sem : Sem) (dfuel : Nat) :
    Nat → Bool → RtState → Option (RtState × Except TryComposeError Unit)
  | 0, _, _ => none
  | lfuel + 1, isPending, st =>
    match next sem dfuel st with
    | none => none
    | some (st1, none) => some (st1, if isPending then .error .pending else .ok ())
    | some (st1, some (.error e)) => some (st1, .error (.error e))
    | some (st1, some (.ok _)) => tryComposeAux sem dfuel lfuel false st1

/-- `Composer::try_compose` (composer.rs 307-321). -/
def tryCompose (sem : Sem) (dfuel lfuel : Nat) (st : RtState) :
    Option (RtState × Except TryComposeError Unit) :=
  tryComposeAux sem dfuel lfuel true st

/-- The state after `n` consecutive driver steps that each did real work
and succeeded (`Some(Ok(()))`); `none` if any of the first `n` steps was
not such a step. -/
def okIter (sem : Sem) (dfuel : Nat) : Nat → RtState → Option RtState
  | 0, st => some st
  | n + 1, st =>
    match next sem dfuel st with
    | some (st1, some (.ok _)) => okIter sem dfuel n st1
    | _ => none

/-- Specification-side description of one ready-queue drain: resume each
queued key once, in FIFO order. -/
def resumeAll (sem : Sem) : List Nat → RtState → RtState
  | [], st => st
  | k :: rest, st => resumeAll sem rest (pollAndReap sem k { st with taskQueue := rest })

/-- Specification-side description of one update flush: run each queued
update once, in FIFO (arrival) order. -/
def flushUpdates (sem : Sem) : List Nat → RtState → RtState
  | [], st => st
  | u :: rest, st => flushUpdates sem rest (sem.updF u { st with updateQueue := rest })

theorem tryComposeAux_trace (sem : Sem) (dfuel : Nat) :
    ∀ (n : Nat) (b : Bool) (st stn : RtState), okIter sem dfuel n st = some stn →
      (∀ st1, next sem dfuel stn = some (st1, none) → ∀ lfuel, n < lfuel →
        tryComposeAux sem dfuel lfuel b st =
          some (st1, if b = true ∧ n = 0 then .error .pending else .ok ())) ∧
      (∀ st1 e, next sem dfuel stn = some (st1, some (.error e)) → ∀ lfuel, n < lfuel →
        tryComposeAux sem dfuel lfuel b st = some (st1, .error (.error e))) := by
  intro n
  induction n with
  | zero =>
    intro b st stn h
    have hst : st = stn := by simpa [okIter] using h
    subst hst
    constructor
    · intro st1 hnext lfuel hl
      obtain ⟨f, rfl⟩ : ∃ f, lfuel = f + 1 := ⟨lfuel - 1, by omega⟩
      simp only [tryComposeAux, hnext]
      cases b <;> simp
    · intro st1 e hnext lfuel hl
      obtain ⟨f, rfl⟩ : ∃ f, lfuel = f + 1 := ⟨lfuel - 1, by omega⟩
      simp [tryComposeAux, hnext]
  | succ n ih =>
    intro b st stn h
    rw [okIter] at h
    cases hn : next sem dfuel st with
    | none => rw [hn] at h; simp at h
    | some pr =>
      obtain ⟨st1, r⟩ := pr
      rw [hn] at h
      rcases r with _ | r
      · simp at h
      · rcases r with e | u
        · simp at h
        · simp only [] at h
          constructor
          · intro st2 hnext lfuel hl
            obtain ⟨f, rfl⟩ : ∃ f, lfuel = f + 1 := ⟨lfuel - 1, by omega⟩
            have hmain := (ih false st1 stn h).1 st2 hnext f (by omega)
            simp only [tryComposeAux, hn]
            simp at hmain ⊢
            exact hmain
          · intro st2 e hnext lfuel hl
            obtain ⟨f, rfl⟩ : ∃ f, lfuel = f + 1 := ⟨lfuel - 1, by omega⟩
            have hmain := (ih false st1 stn h).2 st2 e hnext f (by omega)
            simp only [tryComposeAux, hn]
            exact hmain

/-- C2: `try_compose` steps repeatedly and yields exactly one of three
outcomes — after `n` steps of real work, a no-progress step gives
`Err(Pending)` when `n = 0` and `Ok(())` when `n ≥ 1`, while the first
failing step makes the call stop there and return that step's error. -/
theorem c2_try_compose (sem : Sem) (dfuel n : Nat) (st stn : RtState)
    (hok : okIter sem dfuel n st = some stn) :
    (∀ st1, next sem dfuel stn = some (st1, none) → ∀ lfuel, n < lfuel →
      tryCompose sem dfuel lfuel st =
        some (st1, if n = 0 then Except.error TryComposeError.pending
                   else Except.ok ())) ∧
    (∀ st1 e, next sem dfuel stn = some (st1, some (.error e)) → ∀ lfuel, n < lfuel →
      tryCompose sem dfuel lfuel st = some (st1, .error (.error e))) := by
  have h := tryComposeAux_trace sem dfuel n true st stn hok
  constructor
  · intro st1 hnext lfuel hl
    have hmain := h.1 st1 hnext lfuel hl
    simpa [tryCompose] using hmain
  · intro st1 e hnext lfuel hl
    exact h.2 st1 e hnext lfuel hl

/-- No-op user code: composables, polls and updates that leave the state
unchanged (polls never complete). -/
def noopSem : Sem := ⟨fun _ s => s, fun _ s => (s, false), fun _ s => s⟩

/-- A non-initial state with one pending entry and empty queues. -/
def stC2 : RtState := ⟨[⟨1, [0]⟩], [], [], [], none, 0, 0, false⟩

/-- The state after draining that single pending entry. -/
def stC2mid : RtState := ⟨[], [], [], [], none, 1, 0, false⟩

/-- Witness for C2: one real step of work followed by a no-progress step
makes `try_compose` return success. -/
theorem c2_try_compose_witness :
    tryCompose noopSem 0 2 stC2 = some (stC2mid, Except.ok ()) := by
  have h := (c2_try_compose noopSem 0 1 stC2 stC2mid (by decide)).1 stC2mid
    (by rfl) 2 (by decide)
  simpa using h

/-- C3: every driver step clears the error sink before doing its work (the
incoming sink content is irrelevant to the step), a recomposition step runs
the composable against a state whose sink is empty, and the step's result
is read from the sink after the work: `Ok` exactly when the sink stayed
empty, `Err` carrying its contents otherwise. -/
theorem c3_error_sink (sem : Sem) (dfuel : Nat) :
    (∀ (st : RtState) (x : Option Nat),
      next sem dfuel { st with errorCell := x } = next sem dfuel st) ∧
    (∀ (st : RtState) (p : Pending) (rest : List Pending),
      st.isInitial = false → st.pending = p :: rest →
      next sem dfuel st =
        (let w := sem.composeF p.key { st with errorCell := none, pending := rest, currentKey := p.key }
         some (w, some (stepOutcome w.errorCell)))) ∧
    (∀ st : RtState, st.isInitial = true →
      next sem dfuel st =
        (let w := sem.composeF st.root { st with errorCell := none, isInitial := false, currentKey := st.root }
         some (w, some (stepOutcome w.errorCell)))) ∧
    (∀ o : Option Nat, stepOutcome o = .ok () ↔ o = none) := by
  refine ⟨fun st x => rfl, ?_, ?_, ?_⟩
  · intro st p rest hinit hpend
    simp [next, hinit, hpend, popFirst]
  · intro st hinit
    simp [next, hinit]
  · intro o
    cases o <;> simp [stepOutcome]

/-- Composables that record error code `5` into the sink. -/
def errSem : Sem :=
  ⟨fun _ s => { s with errorCell := some 5 }, fun _ s => (s, false), fun _ s => s⟩

/-- Witness for C3: a recomposition step whose composable records an error
yields a step failure carrying that error. -/
theorem c3_error_sink_witness :
    next errSem 0 stC2 =
      some (⟨[], [], [], [], some 5, 1, 0, false⟩, some (Except.error 5)) := by
  have h := (c3_error_sink errSem 0).2.1 stC2 ⟨1, [0]⟩ [] rfl rfl
  exact h

theorem nodup_not_mem_erase {l : List Nat} (a : Nat) (h : l.Nodup) :
    a ∉ l.erase a := by
  induction l with
  | nil => simp
  | cons b bs ih =>
    have hb : b ∉ bs := (List.nodup_cons.mp h).1
    have hbs : bs.Nodup := (List.nodup_cons.mp h).2
    rw [List.erase_cons]
    by_cases hba : b = a
    · subst hba
      simp [hb]
    · simp only [beq_iff_eq, hba, if_false, List.mem_cons]
      push_neg
      exact ⟨fun hab => hba hab.symm, ih hbs⟩

/-- C4: resuming a ready task leaves a non-completing task stored in the
task table and removes a completing one; the drain loop itself only polls
the popped key. Completion removal is the spec-modelled wrapper behaviour
of `pollAndReap`; the driver code in src never deletes a task. -/
theorem c4_task_lifecycle (sem : Sem) (k : Nat) (st : RtState)
    (hmem : k ∈ st.tasks) (hpres : ((sem.pollF k st).1).tasks = st.tasks)
    (hnd : st.tasks.Nodup) :
    ((sem.pollF k st).2 = false →
      (pollAndReap sem k st).tasks = st.tasks ∧ k ∈ (pollAndReap sem k st).tasks) ∧
    ((sem.pollF k st).2 = true → k ∉ (pollAndReap sem k st).tasks) ∧
    (∀ rest, st.taskQueue = k :: rest → ∀ fuel,
      drainTasks sem (fuel + 1) st =
        drainTasks sem fuel (pollAndReap sem k { st with taskQueue := rest })) := by
  refine ⟨?_, ?_, ?_⟩
  · intro hc
    simp [pollAndReap, hc, hpres, hmem]
  · intro hc
    simp only [pollAndReap, hc, if_true]
    rw [hpres]
    exact nodup_not_mem_erase k hnd
  · intro rest hq fuel
    simp [drainTasks, hq, hmem]

/-- User code whose task polls always report completion. -/
def reapSem : Sem := ⟨fun _ s => s, fun _ s => (s, true), fun _ s => s⟩

/-- A state holding one task, key `7`, which is ready. -/
def stC4 : RtState := ⟨[], [7], [7], [], none, 0, 0, false⟩

/-- Witness for C4: the completed task `7` is no longer in the table. -/
theorem c4_task_lifecycle_witness :
    (7 : Nat) ∉ (pollAndReap reapSem 7 stC4).tasks :=
  (c4_task_lifecycle reapSem 7 stC4 (by decide) rfl (by decide)).2.1 rfl

theorem pollAndReap_taskQueue (sem : Sem) (k : Nat) (st : RtState) :
    (pollAndReap sem k st).taskQueue = ((sem.pollF k st).1).taskQueue := by
  simp only [pollAndReap]
  split <;> rfl

theorem drainTasks_eq_resumeAll (sem : Sem)
    (hq : ∀ k s, ((sem.pollF k s).1).taskQueue = s.taskQueue)
    (hpt : ∀ k s, ((sem.pollF k s).1).tasks = s.tasks) :
    ∀ (ks : List Nat) (fuel : Nat) (st : RtState), st.taskQueue = ks →
      (∀ k ∈ ks, k ∈ st.tasks) → ks.Nodup → ks.length ≤ fuel →
      drainTasks sem fuel st = some (resumeAll sem ks st) := by
  intro ks
  induction ks with
  | nil =>
    intro fuel st hqe hsub hnd hlen
    cases fuel with
    | zero => simp [drainTasks, resumeAll, hqe]
    | succ f => simp [drainTasks, resumeAll, hqe]
  | cons k rest ih =>
    intro fuel st hqe hsub hnd hlen
    obtain ⟨f, rfl⟩ : ∃ f, fuel = f + 1 := ⟨fuel - 1, by simp at hlen; omega⟩
    have hk : k ∈ st.tasks := hsub k (List.mem_cons_self k rest)
    have hknr : k ∉ rest := (List.nodup_cons.mp hnd).1
    simp only [drainTasks, hqe, hk, if_true]
    rw [resumeAll]
    refine ih f (pollAndReap sem k { st with taskQueue := rest }) ?_ ?_ ?_ ?_
    · rw [pollAndReap_taskQueue, hq]
    · intro k' hk'
      have hne : k' ≠ k := fun h => hknr (h ▸ hk')
      have hin : k' ∈ st.tasks := hsub k' (List.mem_cons_of_mem k hk')
      simp only [pollAndReap]
      split
      · rw [hpt]
        exact (List.mem_erase_of_ne hne).mpr hin
      · rw [hpt]
        exact hin
    · exact (List.nodup_cons.mp hnd).2
    · simp at hlen; omega

theorem drainUpdates_eq_flush (sem : Sem)
    (hu : ∀ u s, (sem.updF u s).updateQueue = s.updateQueue) :
    ∀ (us : List Nat) (fuel : Nat) (st : RtState), st.updateQueue = us →
      us.length ≤ fuel →
      drainUpdates sem fuel st = some (flushUpdates sem us st) := by
  intro us
  induction us with
  | nil =>
    intro fuel st hqe hlen
    cases fuel with
    | zero => simp [drainUpdates, flushUpdates, hqe]
    | succ f => simp [drainUpdates, flushUpdates, hqe]
  | cons u rest ih =>
    intro fuel st hqe hlen
    obtain ⟨f, rfl⟩ : ∃ f, fuel = f + 1 := ⟨fuel - 1, by simp at hlen; omega⟩
    simp only [drainUpdates, hqe]
    rw [flushUpdates]
    refine ih f (sem.updF u { st with updateQueue := rest }) ?_ ?_
    · rw [hu]
    · simp at hlen; omega

/-- C7: a non-initial driver step that finds the pending set empty resumes
every currently-ready task in queue order, then pops and executes every
queued deferred mutation in FIFO order, and then reports no progress. -/
theorem c7_idle_phase (sem : Sem) (dfuel : Nat) (st : RtState)
    (hinit : st.isInitial = false) (hpend : st.pending = [])
    (hq : ∀ k s, ((sem.pollF k s).1).taskQueue = s.taskQueue)
    (hpt : ∀ k s, ((sem.pollF k s).1).tasks = s.tasks)
    (hu : ∀ u s, (sem.updF u s).updateQueue = s.updateQueue)
    (hsub : ∀ k ∈ st.taskQueue, k ∈ st.tasks) (hnd : st.taskQueue.Nodup)
    (hf1 : st.taskQueue.length ≤ dfuel)
    (hf2 : (resumeAll sem st.taskQueue { st with errorCell := none }).updateQueue.length ≤ dfuel) :
    next sem dfuel st =
      (let mid := resumeAll sem st.taskQueue { st with errorCell := none }
       some (flushUpdates sem mid.updateQueue mid, none)) := by
  have hT : drainTasks sem dfuel { st with errorCell := none } =
      some (resumeAll sem st.taskQueue { st with errorCell := none }) :=
    drainTasks_eq_resumeAll sem hq hpt st.taskQueue dfuel
      { st with errorCell := none } rfl hsub hnd hf1
  have hU := drainUpdates_eq_flush sem hu
    (resumeAll sem st.taskQueue { st with errorCell := none }).updateQueue dfuel
    (resumeAll sem st.taskQueue { st with errorCell := none }) rfl hf2
  simp only [hpend, hinit] at hT hU
  simp [next, hinit, hpend, popFirst, hT, hU]

/-- User code for the idle-phase witness: polls shift the current key and
do not complete; updates set the current key to their own id. -/
def mixSem : Sem :=
  ⟨fun _ s => s, fun _ s => ({ s with currentKey := 100 }, false),
   fun u s => { s with currentKey := u }⟩

/-- A non-initial idle state with one ready task `4` and one update `3`. -/
def stC7 : RtState := ⟨[], [4], [4], [3], none, 0, 0, false⟩

/-- Witness for C7: the idle step resumes task `4`, runs update `3`, and
reports no progress. -/
theorem c7_idle_phase_witness :
    next mixSem 1 stC7 = some (⟨[], [], [4], [], none, 3, 0, false⟩, none) := by
  have h := c7_idle_phase mixSem 1 stC7 rfl rfl (fun k s => rfl) (fun k s => rfl)
    (fun u s => rfl) (by decide) (by decide) (by decide) (by decide)
  exact h

/-- The idle (ready-and-update drain) step: with nothing pending and both
drains completing, the step returns the drained state and no progress. -/
theorem next_idle (sem : Sem) (dfuel : Nat) (st st1 st2 : RtState)
    (hinit : st.isInitial = false) (hpend : st.pending = [])
    (ht : drainTasks sem dfuel { st with errorCell := none } = some st1)
    (hup : drainUpdates sem dfuel st1 = some st2) :
    next sem dfuel st = some (st2, none) := by
  simp only [hpend, hinit] at ht
  simp [next, hinit, hpend, popFirst, ht, hup]

/-- C9: the ready-and-update drain branch returns the no-progress signal
without consulting the error sink, so an error recorded during that phase
(here `st2.errorCell = some e`) never surfaces: the step is not a failure,
and a `try_compose` whose step it is returns `Pending` or `Ok`, never that
error. -/
theorem c9_idle_discards_errors (sem : Sem) (dfuel : Nat) (st st1 st2 : RtState)
    (e : Nat) (hinit : st.isInitial = false) (hpend : st.pending = [])
    (ht : drainTasks sem dfuel { st with errorCell := none } = some st1)
    (hup : drainUpdates sem dfuel st1 = some st2)
    (herr : st2.errorCell = some e) :
    next sem dfuel st = some (st2, none) ∧
    (∀ lfuel b, tryComposeAux sem dfuel (lfuel + 1) b st =
      some (st2, if b then Except.error TryComposeError.pending else Except.ok ())) := by
  have hn := next_idle sem dfuel st st1 st2 hinit hpend ht hup
  refine ⟨hn, ?_⟩
  intro lfuel b
  simp [tryComposeAux, hn]

/-- User code whose updates record error code `7` into the sink. -/
def errUpdSem : Sem :=
  ⟨fun _ s => s, fun _ s => (s, false), fun _ s => { s with errorCell := some 7 }⟩

/-- A non-initial idle state with one queued update. -/
def stC9 : RtState := ⟨[], [], [], [0], none, 0, 0, false⟩

/-- The state after that update recorded its error. -/
def stC9post : RtState := ⟨[], [], [], [], some 7, 0, 0, false⟩

/-- Witness for C9: the update records error `7`, yet the step reports no
progress and `try_compose` reports `Pending`. -/
theorem c9_idle_discards_errors_witness :
    next errUpdSem 1 stC9 = some (stC9post, none) ∧
    tryComposeAux errUpdSem 1 1 true stC9 =
      some (stC9post, Except.error TryComposeError.pending) := by
  have h := c9_idle_discards_errors errUpdSem 1 stC9 stC9 stC9post 7 rfl rfl
    (by rfl) (by rfl) rfl
  exact ⟨h.1, h.2 0 true⟩

/-- C10: a `try_compose` call on a non-initial composer whose pending set
is empty at entry returns `Err(Pending)` even though that same call drained
ready tasks and executed queued mutations — including ones that marked
nodes pending (`st2.pending ≠ []`); the returned state keeps those entries
and the next driver step on it performs a recomposition. -/
theorem c10_idle_returns_pending (sem : Sem) (dfuel : Nat) (st st1 st2 : RtState)
    (hinit : st.isInitial = false) (hpend : st.pending = [])
    (ht : drainTasks sem dfuel { st with errorCell := none } = some st1)
    (hup : drainUpdates sem dfuel st1 = some st2)
    (hnew : st2.pending ≠ []) :
    (∀ lfuel, tryCompose sem dfuel (lfuel + 1) st =
      some (st2, Except.error TryComposeError.pending)) ∧
    (∃ st3 r, next sem dfuel st2 = some (st3, some r)) := by
  have hn := next_idle sem dfuel st st1 st2 hinit hpend ht hup
  constructor
  · intro lfuel
    simp [tryCompose, tryComposeAux, hn]
  · cases hp : st2.pending with
    | nil => exact absurd hp hnew
    | cons p rest =>
      cases hi : st2.isInitial with
      | true =>
        have hstep : next sem dfuel st2 =
            (let w := sem.composeF st2.root { st2 with errorCell := none, isInitial := false, currentKey := st2.root }
             some (w, some (stepOutcome w.errorCell))) := by
          simp [next, hi]
        exact ⟨_, _, hstep⟩
      | false =>
        have hstep : next sem dfuel st2 =
            (let w := sem.composeF p.key { st2 with errorCell := none, pending := rest, currentKey := p.key }
             some (w, some (stepOutcome w.errorCell))) := by
          simp [next, hi, hp, popFirst]
        exact ⟨_, _, hstep⟩

/-- User code whose updates mark node `1` (path `[0]`) pending. -/
def markSem : Sem :=
  ⟨fun _ s => s, fun _ s => (s, false),
   fun _ s => { s with pending := btInsert ⟨1, [0]⟩ s.pending }⟩

/-- A non-initial idle state with one queued update that marks a node. -/
def stC10 : RtState := ⟨[], [], [], [0], none, 0, 0, false⟩

/-- The state after that update marked node `1` pending. -/
def stC10post : RtState := ⟨[⟨1, [0]⟩], [], [], [], none, 0, 0, false⟩

/-- Witness for C10: the call returns `Pending` although its update marked
node `1`, and a subsequent step recomposes it. -/
theorem c10_idle_returns_pending_witness :
    tryCompose markSem 1 1 stC10 =
      some (stC10post, Except.error TryComposeError.pending) ∧
    (∃ st3 r, next markSem 1 stC10post = some (st3, some r)) := by
  have h := c10_idle_returns_pending markSem 1 stC10 stC10 stC10post rfl rfl
    (by rfl) (by rfl) (by decide)
  exact ⟨h.1 0, h.2⟩

end Actuate
